import Mathlib

/-!
Formal model of the generalized weighted multiplicative-update (MUR) NMF
engine of `algorithm.py`: the update step `mur`, the factorization driver
`nmf`, the robust weight functions (`tanh_weight`, `cim_weight`, `l1_weight`,
`l21_weight`), the named variants and the `ALGORITHMS` registry.

Matrices are real-valued with rows and columns indexed by `Fin`.  numpy's
elementwise product, elementwise power, scalar broadcasting and Frobenius
norm are spelled out as explicit pointwise definitions.  The divergence
exponent `beta` is an integer (the repository only ever uses `beta = 2` and
`beta = 1`).  numpy's global pseudorandom generator is modelled by an
abstract state type together with a reseeding function and a draw function;
`np.random.seed(0)` inside `nmf` means every draw comes from the stream
obtained by reseeding with `0`.
-/

open Matrix

namespace NMFModel

variable {m n k : ℕ}

/-- Elementwise (Hadamard) product, numpy `A * B` on same-shape arrays. -/
noncomputable def hprod (A B : Matrix (Fin m) (Fin n) ℝ) : Matrix (Fin m) (Fin n) ℝ :=
  Matrix.of fun i j => A i j * B i j

/-- Elementwise power, numpy `A ** e`.  The exponent is an integer because the
repository only instantiates `beta` with `2` and `1`. -/
noncomputable def epow (A : Matrix (Fin m) (Fin n) ℝ) (e : ℤ) : Matrix (Fin m) (Fin n) ℝ :=
  Matrix.of fun i j => A i j ^ e

/-- Broadcast of numpy `1 - A`. -/
noncomputable def oneSub (A : Matrix (Fin m) (Fin n) ℝ) : Matrix (Fin m) (Fin n) ℝ :=
  Matrix.of fun i j => 1 - A i j

/-- Squared Frobenius norm of a matrix. -/
noncomputable def frobSq (A : Matrix (Fin m) (Fin n) ℝ) : ℝ := ∑ i, ∑ j, A i j ^ 2

/-- numpy `np.linalg.norm` on a 2-D array: the Frobenius norm. -/
noncomputable def frob (A : Matrix (Fin m) (Fin n) ℝ) : ℝ := Real.sqrt (frobSq A)

/-- The all-ones matrix: what the driver's default weight `lambda x, w, h: 1`
broadcasts to inside `mur`. -/
noncomputable def onesMat (m n : ℕ) : Matrix (Fin m) (Fin n) ℝ := Matrix.of fun _ _ => 1

/-- The basis update factor of `mur`, source line
`d_W = U * X * WH**(beta - 2) @ H.T / (U * WH**(beta - 1) @ H.T + l1 + l2 * W)`
with `WH = W @ H`; `@` is matrix product, `*` and `/` are elementwise, and the
scalar `l1` is broadcast. -/
noncomputable def d_W (X : Matrix (Fin m) (Fin n) ℝ) (W : Matrix (Fin m) (Fin k) ℝ)
    (H : Matrix (Fin k) (Fin n) ℝ) (U : Matrix (Fin m) (Fin n) ℝ)
    (beta : ℤ) (l1 l2 : ℝ) : Matrix (Fin m) (Fin k) ℝ :=
  Matrix.of fun i a =>
    (hprod (hprod U X) (epow (W * H) (beta - 2)) * Hᵀ) i a /
      ((hprod U (epow (W * H) (beta - 1)) * Hᵀ) i a + l1 + l2 * W i a)

/-- Source line `e_W = np.linalg.norm(W * (1 - d_W))`, measured on the basis
matrix as it is before `W *= d_W`. -/
noncomputable def e_W (X : Matrix (Fin m) (Fin n) ℝ) (W : Matrix (Fin m) (Fin k) ℝ)
    (H : Matrix (Fin k) (Fin n) ℝ) (U : Matrix (Fin m) (Fin n) ℝ)
    (beta : ℤ) (l1 l2 : ℝ) : ℝ :=
  frob (hprod W (oneSub (d_W X W H U beta l1 l2)))

/-- The coefficient update factor of `mur`, source line
`d_H = W.T @ (U * X * WH**(beta - 2)) / (W.T @ (U * WH**(beta - 1)) + l1 + l2 * H)`;
the `W` passed here is the already-updated basis and `WH = W @ H` is the
recomputed product. -/
noncomputable def d_H (X : Matrix (Fin m) (Fin n) ℝ) (W : Matrix (Fin m) (Fin k) ℝ)
    (H : Matrix (Fin k) (Fin n) ℝ) (U : Matrix (Fin m) (Fin n) ℝ)
    (beta : ℤ) (l1 l2 : ℝ) : Matrix (Fin k) (Fin n) ℝ :=
  Matrix.of fun a j =>
    (Wᵀ * hprod (hprod U X) (epow (W * H) (beta - 2))) a j /
      ((Wᵀ * hprod U (epow (W * H) (beta - 1))) a j + l1 + l2 * H a j)

/-- One weighted multiplicative update, function `mur` of the source, line by
line: `e_W` is measured before `W *= d_W`; the product `W @ H` is recomputed
after the basis update, so `d_H` sees the fresh basis; and `e_H` is measured
on the coefficient matrix *after* `H *= d_H`, i.e. on `H ⊙ d_H`.  Returns
`(W, H, e_W < tol and e_H < tol)`. -/
noncomputable def mur (X : Matrix (Fin m) (Fin n) ℝ) (W : Matrix (Fin m) (Fin k) ℝ)
    (H : Matrix (Fin k) (Fin n) ℝ) (U : Matrix (Fin m) (Fin n) ℝ)
    (beta : ℤ) (l1 l2 tol : ℝ) :
    Matrix (Fin m) (Fin k) ℝ × Matrix (Fin k) (Fin n) ℝ × Bool :=
  let eW := e_W X W H U beta l1 l2
  let W2 := hprod W (d_W X W H U beta l1 l2)
  let dH := d_H X W2 H U beta l1 l2
  let H2 := hprod H dH
  let eH := frob (hprod H2 (oneSub dH))
  (W2, H2, decide (eW < tol ∧ eH < tol))

/-- Modelled from the spec: the update step with the spec's step order 7-8-9,
in which the convergence signal `e_H = ‖H ⊙ (1 − d_H)‖` is computed from the
coefficient matrix *before* the update `H ← H ⊙ d_H` is applied.  Identical
to `mur` in every other respect. -/
noncomputable def murSpecOrder (X : Matrix (Fin m) (Fin n) ℝ) (W : Matrix (Fin m) (Fin k) ℝ)
    (H : Matrix (Fin k) (Fin n) ℝ) (U : Matrix (Fin m) (Fin n) ℝ)
    (beta : ℤ) (l1 l2 tol : ℝ) :
    Matrix (Fin m) (Fin k) ℝ × Matrix (Fin k) (Fin n) ℝ × Bool :=
  let eW := e_W X W H U beta l1 l2
  let W2 := hprod W (d_W X W H U beta l1 l2)
  let dH := d_H X W2 H U beta l1 l2
  let eH := frob (hprod H (oneSub dH))
  let H2 := hprod H dH
  (W2, H2, decide (eW < tol ∧ eH < tol))

/-- Modelled from the spec: the rejected alternative coefficient update factor
that keeps the stale product `Wold * H` inside the elementwise powers (the
spec's open question: "using the stale `W·H` for the H update ... is not
equivalent").  `Wnew` is the updated basis appearing in the outer matrix
products. -/
noncomputable def d_H_stale (X : Matrix (Fin m) (Fin n) ℝ) (Wold Wnew : Matrix (Fin m) (Fin k) ℝ)
    (H : Matrix (Fin k) (Fin n) ℝ) (U : Matrix (Fin m) (Fin n) ℝ)
    (beta : ℤ) (l1 l2 : ℝ) : Matrix (Fin k) (Fin n) ℝ :=
  Matrix.of fun a j =>
    (Wnewᵀ * hprod (hprod U X) (epow (Wold * H) (beta - 2))) a j /
      ((Wnewᵀ * hprod U (epow (Wold * H) (beta - 1))) a j + l1 + l2 * H a j)

/-- Residual `err(X, W, H) = X - W @ H`. -/
noncomputable def err (X : Matrix (Fin m) (Fin n) ℝ) (W : Matrix (Fin m) (Fin k) ℝ)
    (H : Matrix (Fin k) (Fin n) ℝ) : Matrix (Fin m) (Fin n) ℝ :=
  X - W * H

/-- The scale `a = X.size * p / (E**2).sum()` of `tanh_weight`. -/
noncomputable def tanh_a (X : Matrix (Fin m) (Fin n) ℝ) (W : Matrix (Fin m) (Fin k) ℝ)
    (H : Matrix (Fin k) (Fin n) ℝ) (p : ℝ) : ℝ :=
  ((m * n : ℕ) : ℝ) * p / (∑ i, ∑ j, err X W H i j ^ 2)

/-- Weight for tanhNMF: `a * (1 - np.tanh(a * np.abs(E))**2)`. -/
noncomputable def tanh_weight (X : Matrix (Fin m) (Fin n) ℝ) (W : Matrix (Fin m) (Fin k) ℝ)
    (H : Matrix (Fin k) (Fin n) ℝ) (p : ℝ) : Matrix (Fin m) (Fin n) ℝ :=
  Matrix.of fun i j =>
    tanh_a X W H p * (1 - Real.tanh (tanh_a X W H p * |err X W H i j|) ^ 2)

/-- The mean `E2.mean()` of the squared residual, used by `cim_weight`. -/
noncomputable def cim_E2mean (X : Matrix (Fin m) (Fin n) ℝ) (W : Matrix (Fin m) (Fin k) ℝ)
    (H : Matrix (Fin k) (Fin n) ℝ) : ℝ :=
  (∑ i, ∑ j, err X W H i j ^ 2) / ((m * n : ℕ) : ℝ)

/-- Weight for CIM NMF: `np.exp(-E2 / E2.mean())` with `E2 = err(X, W, H)**2`. -/
noncomputable def cim_weight (X : Matrix (Fin m) (Fin n) ℝ) (W : Matrix (Fin m) (Fin k) ℝ)
    (H : Matrix (Fin k) (Fin n) ℝ) : Matrix (Fin m) (Fin n) ℝ :=
  Matrix.of fun i j => Real.exp (-(err X W H i j ^ 2) / cim_E2mean X W H)

/-- Sum of absolute values down one column. -/
noncomputable def colAbsSum (A : Matrix (Fin m) (Fin n) ℝ) (j : Fin n) : ℝ := ∑ i, |A i j|

/-- numpy `np.linalg.norm(A, ord=1)` on a 2-D array: the *induced* 1-norm,
the maximum over columns of the column sum of absolute values.  The fold base
`0` is inert whenever the matrix has at least one column, because column sums
of absolute values are nonnegative. -/
noncomputable def npNorm1 (A : Matrix (Fin m) (Fin n) ℝ) : ℝ :=
  ((List.finRange n).map (colAbsSum A)).foldr max 0

/-- Weight for l1 NMF: the scalar `1 / np.linalg.norm(err(X, W, H), ord=1)`,
broadcast over every element by the caller. -/
noncomputable def l1_weight (X : Matrix (Fin m) (Fin n) ℝ) (W : Matrix (Fin m) (Fin k) ℝ)
    (H : Matrix (Fin k) (Fin n) ℝ) : ℝ :=
  1 / npNorm1 (err X W H)

/-- Modelled from the spec's words for the claim under test: the scalar
`1 / ‖E‖₁` with `‖E‖₁` read as the sum of the absolute values of *all*
entries of the residual matrix. -/
noncomputable def l1_weight_claim (X : Matrix (Fin m) (Fin n) ℝ) (W : Matrix (Fin m) (Fin k) ℝ)
    (H : Matrix (Fin k) (Fin n) ℝ) : ℝ :=
  1 / (∑ i, ∑ j, |err X W H i j|)

/-- Euclidean norm of one column, numpy `np.linalg.norm(A, axis=0)` at `j`. -/
noncomputable def colNorm (A : Matrix (Fin m) (Fin n) ℝ) (j : Fin n) : ℝ :=
  Real.sqrt (∑ i, A i j ^ 2)

/-- Weight for l21 NMF: the per-column vector
`1 / np.linalg.norm(err(X, W, H), axis=0)`, broadcast across rows by the
caller. -/
noncomputable def l21_weight (X : Matrix (Fin m) (Fin n) ℝ) (W : Matrix (Fin m) (Fin k) ℝ)
    (H : Matrix (Fin k) (Fin n) ℝ) : Fin n → ℝ :=
  fun j => 1 / colNorm (err X W H) j

/-- The scale `avg = np.sqrt(X.mean() / K)` of the driver's initialization. -/
noncomputable def initAvg (K : ℕ) (X : Matrix (Fin m) (Fin n) ℝ) : ℝ :=
  Real.sqrt ((∑ i, ∑ j, X i j) / ((m * n : ℕ) : ℝ) / (K : ℝ))

/-- Seeded initial basis `W = avg * np.random.rand(len(X), K)`: after
`np.random.seed(0)` the `m × K` draws are consumed row-major from the stream
`r`, positions `0, …, m*K - 1`. -/
noncomputable def initW (r : ℕ → ℝ) (K : ℕ) (X : Matrix (Fin m) (Fin n) ℝ) :
    Matrix (Fin m) (Fin K) ℝ :=
  Matrix.of fun i j => initAvg K X * r (i * K + j)

/-- Seeded initial coefficients `H = avg * np.random.rand(K, len(X[0]))`: the
`K × n` draws continue the same stream row-major, positions
`m*K, …, m*K + K*n - 1`. -/
noncomputable def initH (r : ℕ → ℝ) (K : ℕ) (X : Matrix (Fin m) (Fin n) ℝ) :
    Matrix (Fin K) (Fin n) ℝ :=
  Matrix.of fun a j => initAvg K X * r (m * K + (a * n + j))

/-- The driver's iteration: `for _ in range(steps): W, H, done = mur(...);
if done: break`, with the weight matrix recomputed from the current
`(X, W, H)` before each update. -/
noncomputable def nmfLoop (X : Matrix (Fin m) (Fin n) ℝ) (beta : ℤ) (l1 l2 : ℝ)
    (weight : Matrix (Fin m) (Fin n) ℝ → Matrix (Fin m) (Fin k) ℝ →
      Matrix (Fin k) (Fin n) ℝ → Matrix (Fin m) (Fin n) ℝ) (tol : ℝ) :
    ℕ → Matrix (Fin m) (Fin k) ℝ × Matrix (Fin k) (Fin n) ℝ →
      Matrix (Fin m) (Fin k) ℝ × Matrix (Fin k) (Fin n) ℝ
  | 0, p => p
  | t + 1, p =>
    let r := mur X p.1 p.2 (weight X p.1 p.2) beta l1 l2 tol
    if r.2.2 then (r.1, r.2.1) else nmfLoop X beta l1 l2 weight tol t (r.1, r.2.1)

/-- The generic driver `nmf`: seed the factors, then iterate `mur` up to
`steps` times, stopping early on convergence.  `r` is the stream of the
pseudorandom generator after `np.random.seed(0)`. -/
noncomputable def nmf (r : ℕ → ℝ) (K : ℕ) (X : Matrix (Fin m) (Fin n) ℝ) (steps : ℕ)
    (beta : ℤ) (l1 l2 : ℝ)
    (weight : Matrix (Fin m) (Fin n) ℝ → Matrix (Fin m) (Fin K) ℝ →
      Matrix (Fin K) (Fin n) ℝ → Matrix (Fin m) (Fin n) ℝ) (tol : ℝ) :
    Matrix (Fin m) (Fin K) ℝ × Matrix (Fin K) (Fin n) ℝ :=
  nmfLoop X beta l1 l2 weight tol steps (initW r K X, initH r K X)

/-- The driver's default weight `lambda x, w, h: 1`, broadcast to a full
matrix. -/
noncomputable def defaultWeight {K : ℕ} : Matrix (Fin m) (Fin n) ℝ → Matrix (Fin m) (Fin K) ℝ →
    Matrix (Fin K) (Fin n) ℝ → Matrix (Fin m) (Fin n) ℝ :=
  fun _ _ _ => Matrix.of fun _ _ => 1

/-- The driver's default tolerance `tol = 1e-3`. -/
noncomputable def tolDefault : ℝ := 1 / 1000

/-- `kl_nmf(K, X, steps) = nmf(K, X, steps, beta=1)`. -/
noncomputable def kl_nmf (r : ℕ → ℝ) (K : ℕ) (X : Matrix (Fin m) (Fin n) ℝ) (steps : ℕ) :
    Matrix (Fin m) (Fin K) ℝ × Matrix (Fin K) (Fin n) ℝ :=
  nmf r K X steps 1 0 0 defaultWeight tolDefault

/-- `l1_nmf(K, X, steps) = nmf(K, X, steps, weight=l1_weight)`; the scalar
weight is broadcast to every element. -/
noncomputable def l1_nmf (r : ℕ → ℝ) (K : ℕ) (X : Matrix (Fin m) (Fin n) ℝ) (steps : ℕ) :
    Matrix (Fin m) (Fin K) ℝ × Matrix (Fin K) (Fin n) ℝ :=
  nmf r K X steps 2 0 0 (fun X' W' H' => Matrix.of fun _ _ => l1_weight X' W' H') tolDefault

/-- `l21_nmf(K, X, steps) = nmf(K, X, steps, weight=l21_weight)`; the
per-column weight vector is broadcast across rows. -/
noncomputable def l21_nmf (r : ℕ → ℝ) (K : ℕ) (X : Matrix (Fin m) (Fin n) ℝ) (steps : ℕ) :
    Matrix (Fin m) (Fin K) ℝ × Matrix (Fin K) (Fin n) ℝ :=
  nmf r K X steps 2 0 0 (fun X' W' H' => Matrix.of fun _ j => l21_weight X' W' H' j) tolDefault

/-- `cim_nmf(K, X, steps) = nmf(K, X, steps, weight=cim_weight)`. -/
noncomputable def cim_nmf (r : ℕ → ℝ) (K : ℕ) (X : Matrix (Fin m) (Fin n) ℝ) (steps : ℕ) :
    Matrix (Fin m) (Fin K) ℝ × Matrix (Fin K) (Fin n) ℝ :=
  nmf r K X steps 2 0 0 (fun X' W' H' => cim_weight X' W' H') tolDefault

/-- `tanh_nmf(K, X, steps) = nmf(K, X, steps, weight=tanh_weight)` with the
shape parameter at its default `p = 1`. -/
noncomputable def tanh_nmf (r : ℕ → ℝ) (K : ℕ) (X : Matrix (Fin m) (Fin n) ℝ) (steps : ℕ) :
    Matrix (Fin m) (Fin K) ℝ × Matrix (Fin K) (Fin n) ℝ :=
  nmf r K X steps 2 0 0 (fun X' W' H' => tanh_weight X' W' H' 1) tolDefault

/-- The common external signature of every registry entry:
`(rank, data, step_budget) → (W, H)`, over any data shape, given the stream of
the reseeded pseudorandom generator. -/
def AlgFun : Type :=
  ∀ (m n : ℕ), (ℕ → ℝ) → (K : ℕ) → Matrix (Fin m) (Fin n) ℝ → ℕ →
    Matrix (Fin m) (Fin K) ℝ × Matrix (Fin K) (Fin n) ℝ

/-- The `ALGORITHMS` registry restricted to its MUR-based entries.  The source
dictionary has one further entry, `'nmf_baseline'`, which delegates to the
external sklearn library solver and is outside this model of the core. -/
noncomputable def ALGORITHMS : List (String × AlgFun) :=
  [("nmf", fun _ _ r K X steps => nmf r K X steps 2 0 0 defaultWeight tolDefault),
   ("kl_nmf", fun _ _ r K X steps => kl_nmf r K X steps),
   ("l1_nmf", fun _ _ r K X steps => l1_nmf r K X steps),
   ("l21_nmf", fun _ _ r K X steps => l21_nmf r K X steps),
   ("cim_nmf", fun _ _ r K X steps => cim_nmf r K X steps),
   ("tanh_nmf", fun _ _ r K X steps => tanh_nmf r K X steps)]

/-- State of numpy's global generator after `np.random.seed(0)` followed by
`t` draws; `seedFn` reseeds, `randFn` draws one value. -/
def npStateAfter (S : Type) (seedFn : ℕ → S) (randFn : S → ℝ × S) : ℕ → S
  | 0 => seedFn 0
  | t + 1 => (randFn (npStateAfter S seedFn randFn t)).2

/-- The value stream of numpy's global generator after `np.random.seed(0)`. -/
def npStream (S : Type) (seedFn : ℕ → S) (randFn : S → ℝ × S) : ℕ → ℝ :=
  fun t => (randFn (npStateAfter S seedFn randFn t)).1

/-- `nmf` as called with numpy's global generator in state `s0`: the first
thing the driver does is `np.random.seed(0)`, which replaces `s0` by the
reseeded state, so every draw comes from `npStream`. -/
noncomputable def nmfGlobal (S : Type) (seedFn : ℕ → S) (randFn : S → ℝ × S) (_s0 : S)
    (K : ℕ) (X : Matrix (Fin m) (Fin n) ℝ) (steps : ℕ) (beta : ℤ) (l1 l2 : ℝ)
    (weight : Matrix (Fin m) (Fin n) ℝ → Matrix (Fin m) (Fin K) ℝ →
      Matrix (Fin K) (Fin n) ℝ → Matrix (Fin m) (Fin n) ℝ) (tol : ℝ) :
    Matrix (Fin m) (Fin K) ℝ × Matrix (Fin K) (Fin n) ℝ :=
  nmf (npStream S seedFn randFn) K X steps beta l1 l2 weight tol

/-- Row of a matrix-vector product: `colDot M x a = ∑ j, M a j * x j`
(the vector `M · x`), used to restate the `beta = 2` uniform-weight update. -/
noncomputable def colDot {k p : ℕ} (M : Matrix (Fin k) (Fin p) ℝ) (x : Fin p → ℝ) :
    Fin k → ℝ :=
  fun a => ∑ j, M a j * x j

/-- Row of the Gram-matrix-vector product:
`gram M w a = ∑ b, (M * Mᵀ) a b * w b`, the denominator vector of the
`beta = 2` uniform-weight multiplicative update. -/
noncomputable def gram {k p : ℕ} (M : Matrix (Fin k) (Fin p) ℝ) (w : Fin k → ℝ) :
    Fin k → ℝ :=
  fun a => ∑ b, (M * Mᵀ) a b * w b

/-! ### Helper lemmas -/

lemma matmul_entry_nonneg {p q r : ℕ} (A : Matrix (Fin p) (Fin q) ℝ)
    (B : Matrix (Fin q) (Fin r) ℝ) (hA : ∀ i j, 0 ≤ A i j) (hB : ∀ i j, 0 ≤ B i j)
    (i : Fin p) (j : Fin r) : 0 ≤ (A * B) i j := by
  rw [Matrix.mul_apply]
  exact Finset.sum_nonneg fun a _ => mul_nonneg (hA i a) (hB a j)

lemma d_W_entry_nonneg (X : Matrix (Fin m) (Fin n) ℝ) (W : Matrix (Fin m) (Fin k) ℝ)
    (H : Matrix (Fin k) (Fin n) ℝ) (U : Matrix (Fin m) (Fin n) ℝ) (beta : ℤ) (l1 l2 : ℝ)
    (hX : ∀ i j, 0 ≤ X i j) (hW : ∀ i a, 0 ≤ W i a) (hH : ∀ a j, 0 ≤ H a j)
    (hU : ∀ i j, 0 ≤ U i j)
    (hden : ∀ i a, 0 ≤ (hprod U (epow (W * H) (beta - 1)) * Hᵀ) i a + l1 + l2 * W i a) :
    ∀ i a, 0 ≤ d_W X W H U beta l1 l2 i a := by
  intro i a
  unfold d_W
  rw [Matrix.of_apply]
  refine div_nonneg ?_ (hden i a)
  refine matmul_entry_nonneg _ _ (fun i' j' => ?_) (fun j' a' => ?_) i a
  · simp only [hprod, epow, Matrix.of_apply]
    exact mul_nonneg (mul_nonneg (hU i' j') (hX i' j'))
      (zpow_nonneg (matmul_entry_nonneg W H hW hH i' j') _)
  · exact hH a' j'

lemma d_H_entry_nonneg (X : Matrix (Fin m) (Fin n) ℝ) (W : Matrix (Fin m) (Fin k) ℝ)
    (H : Matrix (Fin k) (Fin n) ℝ) (U : Matrix (Fin m) (Fin n) ℝ) (beta : ℤ) (l1 l2 : ℝ)
    (hX : ∀ i j, 0 ≤ X i j) (hW : ∀ i a, 0 ≤ W i a) (hH : ∀ a j, 0 ≤ H a j)
    (hU : ∀ i j, 0 ≤ U i j)
    (hden : ∀ a j, 0 ≤ (Wᵀ * hprod U (epow (W * H) (beta - 1))) a j + l1 + l2 * H a j) :
    ∀ a j, 0 ≤ d_H X W H U beta l1 l2 a j := by
  intro a j
  unfold d_H
  rw [Matrix.of_apply]
  refine div_nonneg ?_ (hden a j)
  refine matmul_entry_nonneg _ _ (fun a' i' => ?_) (fun i' j' => ?_) a j
  · exact hW i' a'
  · simp only [hprod, epow, Matrix.of_apply]
    exact mul_nonneg (mul_nonneg (hU i' j') (hX i' j'))
      (zpow_nonneg (matmul_entry_nonneg W H hW hH i' j') _)

lemma mur_nonneg (X : Matrix (Fin m) (Fin n) ℝ) (W : Matrix (Fin m) (Fin k) ℝ)
    (H : Matrix (Fin k) (Fin n) ℝ) (U : Matrix (Fin m) (Fin n) ℝ) (beta : ℤ) (l1 l2 tol : ℝ)
    (hX : ∀ i j, 0 ≤ X i j) (hW : ∀ i a, 0 ≤ W i a) (hH : ∀ a j, 0 ≤ H a j)
    (hU : ∀ i j, 0 ≤ U i j) (hl1 : 0 ≤ l1) (hl2 : 0 ≤ l2) :
    (∀ i a, 0 ≤ (mur X W H U beta l1 l2 tol).1 i a) ∧
      (∀ a j, 0 ≤ (mur X W H U beta l1 l2 tol).2.1 a j) := by
  have hdW : ∀ i a, 0 ≤ (hprod U (epow (W * H) (beta - 1)) * Hᵀ) i a + l1 + l2 * W i a := by
    intro i a
    refine add_nonneg (add_nonneg ?_ hl1) (mul_nonneg hl2 (hW i a))
    refine matmul_entry_nonneg _ _ (fun i' j' => ?_) (fun j' a' => hH a' j') i a
    simp only [hprod, epow, Matrix.of_apply]
    exact mul_nonneg (hU i' j') (zpow_nonneg (matmul_entry_nonneg W H hW hH i' j') _)
  have hW2 : ∀ i a, 0 ≤ hprod W (d_W X W H U beta l1 l2) i a := by
    intro i a
    simp only [hprod, Matrix.of_apply]
    exact mul_nonneg (hW i a)
      (d_W_entry_nonneg X W H U beta l1 l2 hX hW hH hU hdW i a)
  set W2 := hprod W (d_W X W H U beta l1 l2) with hW2def
  have hdH : ∀ a j, 0 ≤ (W2ᵀ * hprod U (epow (W2 * H) (beta - 1))) a j + l1 + l2 * H a j := by
    intro a j
    refine add_nonneg (add_nonneg ?_ hl1) (mul_nonneg hl2 (hH a j))
    refine matmul_entry_nonneg _ _ (fun a' i' => hW2 i' a') (fun i' j' => ?_) a j
    simp only [hprod, epow, Matrix.of_apply]
    exact mul_nonneg (hU i' j') (zpow_nonneg (matmul_entry_nonneg W2 H hW2 hH i' j') _)
  refine ⟨fun i a => hW2 i a, fun a j => ?_⟩
  show 0 ≤ hprod H (d_H X W2 H U beta l1 l2) a j
  simp only [hprod, Matrix.of_apply]
  exact mul_nonneg (hH a j) (d_H_entry_nonneg X W2 H U beta l1 l2 hX hW2 hH hU hdH a j)

lemma nmfLoop_nonneg (X : Matrix (Fin m) (Fin n) ℝ) (beta : ℤ) (l1 l2 : ℝ)
    (weight : Matrix (Fin m) (Fin n) ℝ → Matrix (Fin m) (Fin k) ℝ →
      Matrix (Fin k) (Fin n) ℝ → Matrix (Fin m) (Fin n) ℝ) (tol : ℝ)
    (hX : ∀ i j, 0 ≤ X i j) (hl1 : 0 ≤ l1) (hl2 : 0 ≤ l2)
    (hw : ∀ (W : Matrix (Fin m) (Fin k) ℝ) (H : Matrix (Fin k) (Fin n) ℝ),
      (∀ i a, 0 ≤ W i a) → (∀ a j, 0 ≤ H a j) → ∀ i j, 0 ≤ weight X W H i j) :
    ∀ (steps : ℕ) (p : Matrix (Fin m) (Fin k) ℝ × Matrix (Fin k) (Fin n) ℝ),
      (∀ i a, 0 ≤ p.1 i a) → (∀ a j, 0 ≤ p.2 a j) →
      (∀ i a, 0 ≤ (nmfLoop X beta l1 l2 weight tol steps p).1 i a) ∧
        (∀ a j, 0 ≤ (nmfLoop X beta l1 l2 weight tol steps p).2 a j) := by
  intro steps
  induction steps with
  | zero => intro p h1 h2; exact ⟨h1, h2⟩
  | succ t ih =>
    intro p h1 h2
    have hstep := mur_nonneg X p.1 p.2 (weight X p.1 p.2) beta l1 l2 tol
      hX h1 h2 (hw p.1 p.2 h1 h2) hl1 hl2
    simp only [nmfLoop]
    split
    · exact hstep
    · exact ih _ hstep.1 hstep.2

/-! ### Claims -/

/-- C10: `nmf` is deterministic.  Two calls with identical arguments agree no
matter what the incoming global generator state is, because the driver starts
with `np.random.seed(0)` and so draws from the fixed reseeded stream; the
seeded factors are exactly the stream values scaled by
`sqrt(mean(X) / K)`, and each update step is a pure function. -/
theorem nmf_deterministic_reseeded :
    ∀ (S : Type) (seedFn : ℕ → S) (randFn : S → ℝ × S) (s0 s1 : S) (K : ℕ)
      (X : Matrix (Fin m) (Fin n) ℝ) (steps : ℕ) (beta : ℤ) (l1 l2 : ℝ)
      (weight : Matrix (Fin m) (Fin n) ℝ → Matrix (Fin m) (Fin K) ℝ →
        Matrix (Fin K) (Fin n) ℝ → Matrix (Fin m) (Fin n) ℝ) (tol : ℝ),
      nmfGlobal S seedFn randFn s0 K X steps beta l1 l2 weight tol =
        nmfGlobal S seedFn randFn s1 K X steps beta l1 l2 weight tol ∧
      initW (npStream S seedFn randFn) K X =
        (Matrix.of fun (i : Fin m) (j : Fin K) =>
          Real.sqrt ((∑ i', ∑ j', X i' j') / ((m * n : ℕ) : ℝ) / (K : ℝ)) *
            npStream S seedFn randFn (i.val * K + j.val)) := by
  intro S seedFn randFn s0 s1 K X steps beta l1 l2 weight tol
  exact ⟨rfl, rfl⟩

/-- C4: a step budget of `0` performs no update: the generic driver and every
MUR-based registry variant return exactly the seeded factors `(initW, initH)`
of shape rows×K and K×columns. -/
theorem zero_step_budget_returns_seed :
    ∀ (r : ℕ → ℝ) (K : ℕ) (X : Matrix (Fin m) (Fin n) ℝ) (beta : ℤ) (l1 l2 : ℝ)
      (weight : Matrix (Fin m) (Fin n) ℝ → Matrix (Fin m) (Fin K) ℝ →
        Matrix (Fin K) (Fin n) ℝ → Matrix (Fin m) (Fin n) ℝ) (tol : ℝ),
      nmf r K X 0 beta l1 l2 weight tol = (initW r K X, initH r K X) ∧
      kl_nmf r K X 0 = (initW r K X, initH r K X) ∧
      l1_nmf r K X 0 = (initW r K X, initH r K X) ∧
      l21_nmf r K X 0 = (initW r K X, initH r K X) ∧
      cim_nmf r K X 0 = (initW r K X, initH r K X) ∧
      tanh_nmf r K X 0 = (initW r K X, initH r K X) :=
  fun _ _ _ _ _ _ _ _ => ⟨rfl, rfl, rfl, rfl, rfl, rfl⟩

/-- C5: each named variant is the generic driver at its published
`(beta, weight)` configuration — `kl_nmf` is `nmf` with `beta = 1` and the
uniform weight, and `l1_nmf`, `l21_nmf`, `cim_nmf`, `tanh_nmf` are `nmf` with
`beta = 2` and the matching robust weight, all at the default tolerance
`1e-3`; and the `ALGORITHMS` registry maps each variant name to exactly that
function, every entry having the common signature
`(rank, data, step_budget) → (W, H)`. -/
theorem registry_variant_configurations :
    (∀ (r : ℕ → ℝ) (K : ℕ) (X : Matrix (Fin m) (Fin n) ℝ) (steps : ℕ),
      kl_nmf r K X steps =
        nmf r K X steps 1 0 0 (fun _ _ _ => Matrix.of fun _ _ => 1) (1 / 1000) ∧
      l1_nmf r K X steps =
        nmf r K X steps 2 0 0
          (fun X' W' H' => Matrix.of fun _ _ => l1_weight X' W' H') (1 / 1000) ∧
      l21_nmf r K X steps =
        nmf r K X steps 2 0 0
          (fun X' W' H' => Matrix.of fun _ j => l21_weight X' W' H' j) (1 / 1000) ∧
      cim_nmf r K X steps =
        nmf r K X steps 2 0 0 (fun X' W' H' => cim_weight X' W' H') (1 / 1000) ∧
      tanh_nmf r K X steps =
        nmf r K X steps 2 0 0 (fun X' W' H' => tanh_weight X' W' H' 1) (1 / 1000)) ∧
    List.lookup "nmf" ALGORITHMS =
      some (fun _ _ r K X steps => nmf r K X steps 2 0 0 defaultWeight tolDefault) ∧
    List.lookup "kl_nmf" ALGORITHMS = some (fun _ _ r K X steps => kl_nmf r K X steps) ∧
    List.lookup "l1_nmf" ALGORITHMS = some (fun _ _ r K X steps => l1_nmf r K X steps) ∧
    List.lookup "l21_nmf" ALGORITHMS = some (fun _ _ r K X steps => l21_nmf r K X steps) ∧
    List.lookup "cim_nmf" ALGORITHMS = some (fun _ _ r K X steps => cim_nmf r K X steps) ∧
    List.lookup "tanh_nmf" ALGORITHMS = some (fun _ _ r K X steps => tanh_nmf r K X steps) :=
  ⟨fun _ _ _ _ => ⟨rfl, rfl, rfl, rfl, rfl⟩, rfl, rfl, rfl, rfl, rfl, rfl⟩

/-- C8: the l21 weight is antitone in the column residual norm: whenever
column `j'` of the residual has a strictly smaller, nonzero Euclidean norm
than column `j`, the (row-broadcast) weight of column `j` is strictly below
the weight of column `j'` — a fully corrupted column with larger residual
norm receives the lower weight. -/
theorem l21_weight_column_antitone (X : Matrix (Fin m) (Fin n) ℝ)
    (W : Matrix (Fin m) (Fin k) ℝ) (H : Matrix (Fin k) (Fin n) ℝ) (j j' : Fin n)
    (h0 : 0 < colNorm (err X W H) j')
    (hlt : colNorm (err X W H) j' < colNorm (err X W H) j) :
    l21_weight X W H j < l21_weight X W H j' :=
  one_div_lt_one_div_of_lt h0 hlt

/-- C8 witness: on `X = [[0,3],[1,4]]` with `W, H` zero, the residual's
columns have norms `1` and `5`, and the corrupted column `1` indeed gets a
strictly smaller weight than column `0`. -/
theorem l21_weight_column_antitone_witness :
    0 < colNorm (err !![(0 : ℝ), 3; 1, 4] !![(0 : ℝ); 0] !![(0 : ℝ), 0]) 0 ∧
    colNorm (err !![(0 : ℝ), 3; 1, 4] !![(0 : ℝ); 0] !![(0 : ℝ), 0]) 0 <
      colNorm (err !![(0 : ℝ), 3; 1, 4] !![(0 : ℝ); 0] !![(0 : ℝ), 0]) 1 ∧
    l21_weight !![(0 : ℝ), 3; 1, 4] !![(0 : ℝ); 0] !![(0 : ℝ), 0] 1 <
      l21_weight !![(0 : ℝ), 3; 1, 4] !![(0 : ℝ); 0] !![(0 : ℝ), 0] 0 := by
  have he : err !![(0 : ℝ), 3; 1, 4] !![(0 : ℝ); 0] !![(0 : ℝ), 0] =
      !![(0 : ℝ), 3; 1, 4] := by
    unfold err
    ext i j
    rw [Matrix.sub_apply, Matrix.mul_apply]
    simp
  have hc0 : colNorm (err !![(0 : ℝ), 3; 1, 4] !![(0 : ℝ); 0] !![(0 : ℝ), 0]) 0 = 1 := by
    rw [he]
    unfold colNorm
    rw [Fin.sum_univ_two]
    norm_num
  have hc1 : colNorm (err !![(0 : ℝ), 3; 1, 4] !![(0 : ℝ); 0] !![(0 : ℝ), 0]) 1 = 5 := by
    rw [he]
    unfold colNorm
    rw [Fin.sum_univ_two]
    norm_num
    rw [show (25 : ℝ) = 5 ^ 2 by norm_num, Real.sqrt_sq (by norm_num)]
  have h0 : 0 < colNorm (err !![(0 : ℝ), 3; 1, 4] !![(0 : ℝ); 0] !![(0 : ℝ), 0]) 0 := by
    rw [hc0]; norm_num
  have hlt : colNorm (err !![(0 : ℝ), 3; 1, 4] !![(0 : ℝ); 0] !![(0 : ℝ), 0]) 0 <
      colNorm (err !![(0 : ℝ), 3; 1, 4] !![(0 : ℝ); 0] !![(0 : ℝ), 0]) 1 := by
    rw [hc0, hc1]; norm_num
  exact ⟨h0, hlt,
    l21_weight_column_antitone !![(0 : ℝ), 3; 1, 4] !![(0 : ℝ); 0] !![(0 : ℝ), 0] 1 0 h0 hlt⟩

/-- C2: with entrywise nonnegative `X`, `W`, `H` and weight `U`, and strictly
positive update denominators, `mur` returns entrywise nonnegative factors;
moreover, with nonnegative regularization strengths and a weight function
that preserves nonnegativity, `nmf` keeps `W` and `H` entrywise nonnegative
after every iteration, starting from its (nonnegative) seeded factors. -/
theorem mur_nmf_preserve_nonnegativity (X : Matrix (Fin m) (Fin n) ℝ)
    (W : Matrix (Fin m) (Fin k) ℝ) (H : Matrix (Fin k) (Fin n) ℝ)
    (U : Matrix (Fin m) (Fin n) ℝ) (beta : ℤ) (l1 l2 tol : ℝ)
    (hX : ∀ i j, 0 ≤ X i j) (hW : ∀ i a, 0 ≤ W i a) (hH : ∀ a j, 0 ≤ H a j)
    (hU : ∀ i j, 0 ≤ U i j)
    (hdW : ∀ i a, 0 < (hprod U (epow (W * H) (beta - 1)) * Hᵀ) i a + l1 + l2 * W i a)
    (hdH : ∀ a j, 0 < ((hprod W (d_W X W H U beta l1 l2))ᵀ *
      hprod U (epow (hprod W (d_W X W H U beta l1 l2) * H) (beta - 1))) a j +
      l1 + l2 * H a j) :
    ((∀ i a, 0 ≤ (mur X W H U beta l1 l2 tol).1 i a) ∧
      (∀ a j, 0 ≤ (mur X W H U beta l1 l2 tol).2.1 a j)) ∧
    (0 ≤ l1 → 0 ≤ l2 →
      ∀ (r : ℕ → ℝ), (∀ t, 0 ≤ r t) → ∀ (K steps : ℕ)
        (weight : Matrix (Fin m) (Fin n) ℝ → Matrix (Fin m) (Fin K) ℝ →
          Matrix (Fin K) (Fin n) ℝ → Matrix (Fin m) (Fin n) ℝ),
        (∀ (W' : Matrix (Fin m) (Fin K) ℝ) (H' : Matrix (Fin K) (Fin n) ℝ),
          (∀ i a, 0 ≤ W' i a) → (∀ a j, 0 ≤ H' a j) → ∀ i j, 0 ≤ weight X W' H' i j) →
        (∀ i a, 0 ≤ (nmf r K X steps beta l1 l2 weight tol).1 i a) ∧
          (∀ a j, 0 ≤ (nmf r K X steps beta l1 l2 weight tol).2 a j)) := by
  constructor
  · have hW2 : ∀ i a, 0 ≤ hprod W (d_W X W H U beta l1 l2) i a := by
      intro i a
      simp only [hprod, Matrix.of_apply]
      exact mul_nonneg (hW i a)
        (d_W_entry_nonneg X W H U beta l1 l2 hX hW hH hU (fun i' a' => (hdW i' a').le) i a)
    refine ⟨fun i a => hW2 i a, fun a j => ?_⟩
    show 0 ≤ hprod H (d_H X (hprod W (d_W X W H U beta l1 l2)) H U beta l1 l2) a j
    simp only [hprod, Matrix.of_apply]
    exact mul_nonneg (hH a j)
      (d_H_entry_nonneg X _ H U beta l1 l2 hX hW2 hH hU (fun a' j' => (hdH a' j').le) a j)
  · intro hl1 hl2 r hr K steps weight hweight
    have hinit1 : ∀ i a, 0 ≤ initW r K X i a := by
      intro i a
      exact mul_nonneg (Real.sqrt_nonneg _) (hr _)
    have hinit2 : ∀ a j, 0 ≤ initH r K X a j := by
      intro a j
      exact mul_nonneg (Real.sqrt_nonneg _) (hr _)
    exact nmfLoop_nonneg X beta l1 l2 weight tol hX hl1 hl2
      (fun W' H' h1 h2 => hweight W' H' h1 h2) steps (initW r K X, initH r K X) hinit1 hinit2

/-- C2 witness: at the all-ones `1 × 1` instance with `beta = 2` and
`l1 = l2 = 0`, both update denominators are strictly positive, and the
factors returned by `mur` as well as every iterate of `nmf` stay
nonnegative. -/
theorem mur_nmf_preserve_nonnegativity_witness :
    (∀ i a : Fin 1, 0 < (hprod !![(1 : ℝ)] (epow (!![(1 : ℝ)] * !![(1 : ℝ)]) (2 - 1)) *
      !![(1 : ℝ)]ᵀ) i a + 0 + 0 * !![(1 : ℝ)] i a) ∧
    ((∀ i a : Fin 1, 0 ≤ (mur !![(1 : ℝ)] !![(1 : ℝ)] !![(1 : ℝ)] !![(1 : ℝ)]
        2 0 0 (1 / 1000)).1 i a) ∧
      (∀ a j : Fin 1, 0 ≤ (mur !![(1 : ℝ)] !![(1 : ℝ)] !![(1 : ℝ)] !![(1 : ℝ)]
        2 0 0 (1 / 1000)).2.1 a j)) := by
  have hone : ∀ i j : Fin 1, (0 : ℝ) ≤ !![(1 : ℝ)] i j := by
    intro i j
    fin_cases i <;> fin_cases j <;> norm_num
  have hWH : !![(1 : ℝ)] * !![(1 : ℝ)] = !![(1 : ℝ)] := by
    ext i j
    fin_cases i <;> fin_cases j <;>
      simp [Matrix.mul_apply]
  have hdW : ∀ i a : Fin 1, 0 < (hprod !![(1 : ℝ)] (epow (!![(1 : ℝ)] * !![(1 : ℝ)]) (2 - 1)) *
      !![(1 : ℝ)]ᵀ) i a + 0 + 0 * !![(1 : ℝ)] i a := by
    intro i a
    fin_cases i <;> fin_cases a <;>
      norm_num [hprod, epow, hWH, Matrix.mul_apply, Matrix.of_apply]
  have hdWmat : d_W !![(1 : ℝ)] !![(1 : ℝ)] !![(1 : ℝ)] !![(1 : ℝ)] 2 0 0 = !![(1 : ℝ)] := by
    unfold d_W
    ext i a
    fin_cases i <;> fin_cases a <;>
      norm_num [hprod, epow, hWH, Matrix.mul_apply, Matrix.of_apply]
  have hW2 : hprod !![(1 : ℝ)] (d_W !![(1 : ℝ)] !![(1 : ℝ)] !![(1 : ℝ)] !![(1 : ℝ)] 2 0 0) =
      !![(1 : ℝ)] := by
    rw [hdWmat]
    ext i a
    fin_cases i <;> fin_cases a <;> norm_num [hprod, Matrix.of_apply]
  have hdH : ∀ a j : Fin 1,
      0 < ((hprod !![(1 : ℝ)] (d_W !![(1 : ℝ)] !![(1 : ℝ)] !![(1 : ℝ)] !![(1 : ℝ)] 2 0 0))ᵀ *
        hprod !![(1 : ℝ)] (epow (hprod !![(1 : ℝ)]
          (d_W !![(1 : ℝ)] !![(1 : ℝ)] !![(1 : ℝ)] !![(1 : ℝ)] 2 0 0) * !![(1 : ℝ)]) (2 - 1)))
        a j + 0 + 0 * !![(1 : ℝ)] a j := by
    intro a j
    rw [hW2]
    fin_cases a <;> fin_cases j <;>
      norm_num [hprod, epow, hWH, Matrix.mul_apply, Matrix.of_apply]
  exact ⟨hdW, (mur_nmf_preserve_nonnegativity !![(1 : ℝ)] !![(1 : ℝ)] !![(1 : ℝ)] !![(1 : ℝ)]
    2 0 0 (1 / 1000) hone hone hone hone hdW hdH).1⟩

lemma le_foldr_max (l : List ℝ) (a : ℝ) (ha : a ∈ l) : a ≤ l.foldr max 0 := by
  induction l with
  | nil => cases ha
  | cons b t ih =>
    rcases List.mem_cons.mp ha with h | h
    · subst h
      exact le_max_left _ _
    · exact (ih h).trans (le_max_right _ _)

lemma foldr_max_mem (l : List ℝ) (hne : l ≠ []) (h0 : ∀ x ∈ l, 0 ≤ x) :
    l.foldr max 0 ∈ l := by
  induction l with
  | nil => exact absurd rfl hne
  | cons b t ih =>
    cases t with
    | nil =>
      simp only [List.foldr]
      rw [max_eq_left (h0 b (List.mem_singleton.mpr rfl))]
      exact List.mem_singleton.mpr rfl
    | cons c t' =>
      have hmem : (c :: t').foldr max 0 ∈ c :: t' :=
        ih (List.cons_ne_nil c t') fun x hx => h0 x (List.mem_cons_of_mem b hx)
      show max b ((c :: t').foldr max 0) ∈ b :: c :: t'
      rcases le_total ((c :: t').foldr max 0) b with h | h
      · rw [max_eq_left h]
        exact List.mem_cons_self b _
      · rw [max_eq_right h]
        exact List.mem_cons_of_mem b hmem

/-- C7 counterexample: on the residual `[[1,0],[0,1]]` the weight computed by
`l1_weight` is `1` (numpy's `ord=1` matrix norm is the maximum column
absolute sum), while the claim's reading, one over the sum of the absolute
values of all entries, gives `1/2`. -/
theorem l1_weight_entrywise_sum_counterexample :
    l1_weight !![(1 : ℝ), 0; 0, 1] !![(0 : ℝ); 0] !![(0 : ℝ), 0] = 1 ∧
    l1_weight_claim !![(1 : ℝ), 0; 0, 1] !![(0 : ℝ); 0] !![(0 : ℝ), 0] = 1 / 2 ∧
    l1_weight !![(1 : ℝ), 0; 0, 1] !![(0 : ℝ); 0] !![(0 : ℝ), 0] ≠
      l1_weight_claim !![(1 : ℝ), 0; 0, 1] !![(0 : ℝ); 0] !![(0 : ℝ), 0] := by
  have he : err !![(1 : ℝ), 0; 0, 1] !![(0 : ℝ); 0] !![(0 : ℝ), 0] =
      !![(1 : ℝ), 0; 0, 1] := by
    unfold err
    ext i j
    rw [Matrix.sub_apply, Matrix.mul_apply]
    simp
  have hrange : List.finRange 2 = [(0 : Fin 2), 1] := rfl
  have h1 : l1_weight !![(1 : ℝ), 0; 0, 1] !![(0 : ℝ); 0] !![(0 : ℝ), 0] = 1 := by
    unfold l1_weight npNorm1
    rw [he, hrange]
    norm_num [colAbsSum, Fin.sum_univ_two]
  have h2 : l1_weight_claim !![(1 : ℝ), 0; 0, 1] !![(0 : ℝ); 0] !![(0 : ℝ), 0] = 1 / 2 := by
    unfold l1_weight_claim
    rw [he]
    norm_num [Fin.sum_univ_two]
  refine ⟨h1, h2, ?_⟩
  rw [h1, h2]
  norm_num

/-- C7 amended: for a data matrix with at least one column, `l1_weight`
returns the single scalar `1 / ‖E‖₁` where `‖E‖₁` is numpy's induced matrix
1-norm: the sum of absolute values of the entries of some column `j₀` that
dominates every other column's absolute sum (the maximum column sum), not
the sum over all entries. -/
theorem l1_weight_is_inverse_max_column_sum (X : Matrix (Fin m) (Fin (n + 1)) ℝ)
    (W : Matrix (Fin m) (Fin k) ℝ) (H : Matrix (Fin k) (Fin (n + 1)) ℝ) :
    ∃ j0 : Fin (n + 1), l1_weight X W H = 1 / (∑ i, |err X W H i j0|) ∧
      ∀ j, (∑ i, |err X W H i j|) ≤ ∑ i, |err X W H i j0| := by
  set E := err X W H with hE
  have hne : (List.finRange (n + 1)).map (colAbsSum E) ≠ [] := by
    intro h
    have : (List.finRange (n + 1)).length = 0 := by
      simpa using congrArg List.length h
    simp [List.length_finRange] at this
  have h0 : ∀ x ∈ (List.finRange (n + 1)).map (colAbsSum E), 0 ≤ x := by
    intro x hx
    rcases List.mem_map.mp hx with ⟨j, _, rfl⟩
    exact Finset.sum_nonneg fun i _ => abs_nonneg _
  have hmem := foldr_max_mem _ hne h0
  rcases List.mem_map.mp hmem with ⟨j0, _, hj0⟩
  refine ⟨j0, ?_, ?_⟩
  · unfold l1_weight
    rw [← hE]
    unfold npNorm1
    rw [← hj0]
    rfl
  · intro j
    have hle := le_foldr_max _ (colAbsSum E j)
      (List.mem_map_of_mem (colAbsSum E) (List.mem_finRange j))
    show colAbsSum E j ≤ colAbsSum E j0
    rw [hj0]
    exact hle

/-- C1 amended: `mur` reports convergence exactly when `e_W < tol` and
`e_H < tol`, but its `e_H = ‖H ⊙ (1 − d_H)‖` is computed from the coefficient
matrix *after* the update `H ← H ⊙ d_H` has been applied (the source applies
`H *= d_H` before measuring), i.e. from `(H ⊙ d_H) ⊙ (1 − d_H)`, not from the
pre-update `H`. -/
theorem mur_converged_iff_post_update_signal (X : Matrix (Fin m) (Fin n) ℝ)
    (W : Matrix (Fin m) (Fin k) ℝ) (H : Matrix (Fin k) (Fin n) ℝ)
    (U : Matrix (Fin m) (Fin n) ℝ) (beta : ℤ) (l1 l2 tol : ℝ) :
    (mur X W H U beta l1 l2 tol).2.2 = true ↔
      (e_W X W H U beta l1 l2 < tol ∧
        frob (hprod (hprod H (d_H X (hprod W (d_W X W H U beta l1 l2)) H U beta l1 l2))
          (oneSub (d_H X (hprod W (d_W X W H U beta l1 l2)) H U beta l1 l2))) < tol) := by
  simp only [mur, decide_eq_true_eq]

/-- C1 counterexample: at `X = [[1,2]]`, `W = [[3/2]]`, `H = [[1,1]]`,
uniform weight, `beta = 2`, `l1 = l2 = 0`, `tol = 12/25`, the spec's step
order (`e_H` from the pre-update `H`) declares convergence while `mur` (which
measures `e_H` after `H *= d_H`) does not: `e_W = 0`,
`‖H_pre ⊙ (1 − d_H)‖ = √(2/9) < 12/25 ≤ √(20/81) = ‖H_post ⊙ (1 − d_H)‖`. -/
theorem mur_eH_measured_after_update_counterexample :
    (mur !![(1 : ℝ), 2] !![(3 / 2 : ℝ)] !![(1 : ℝ), 1] !![(1 : ℝ), 1]
      2 0 0 (12 / 25)).2.2 = false ∧
    (murSpecOrder !![(1 : ℝ), 2] !![(3 / 2 : ℝ)] !![(1 : ℝ), 1] !![(1 : ℝ), 1]
      2 0 0 (12 / 25)).2.2 = true := by
  have hdW : d_W !![(1 : ℝ), 2] !![(3 / 2 : ℝ)] !![(1 : ℝ), 1] !![(1 : ℝ), 1] 2 0 0 =
      !![(1 : ℝ)] := by
    unfold d_W
    ext i a
    fin_cases i
    fin_cases a
    norm_num [hprod, epow, Matrix.mul_apply, Matrix.of_apply, Fin.sum_univ_one,
      Fin.sum_univ_two]
  have hW2 : hprod !![(3 / 2 : ℝ)]
      (d_W !![(1 : ℝ), 2] !![(3 / 2 : ℝ)] !![(1 : ℝ), 1] !![(1 : ℝ), 1] 2 0 0) =
      !![(3 / 2 : ℝ)] := by
    rw [hdW]
    ext i a
    fin_cases i
    fin_cases a
    norm_num [hprod]
  have hdHmat : d_H !![(1 : ℝ), 2] !![(3 / 2 : ℝ)] !![(1 : ℝ), 1] !![(1 : ℝ), 1] 2 0 0 =
      !![(2 / 3 : ℝ), 4 / 3] := by
    unfold d_H
    ext a j
    fin_cases a <;> fin_cases j <;>
      norm_num [hprod, epow, Matrix.mul_apply, Matrix.of_apply, Matrix.transpose_apply,
        Fin.sum_univ_one, Fin.sum_univ_two]
  have heW : e_W !![(1 : ℝ), 2] !![(3 / 2 : ℝ)] !![(1 : ℝ), 1] !![(1 : ℝ), 1] 2 0 0 = 0 := by
    unfold e_W
    rw [hdW]
    have hz : hprod !![(3 / 2 : ℝ)] (oneSub !![(1 : ℝ)]) = !![(0 : ℝ)] := by
      ext i a
      fin_cases i
      fin_cases a
      norm_num [hprod, oneSub]
    rw [hz]
    unfold frob frobSq
    norm_num [Fin.sum_univ_one, Real.sqrt_zero]
  have hpost : hprod (hprod !![(1 : ℝ), 1] !![(2 / 3 : ℝ), 4 / 3])
      (oneSub !![(2 / 3 : ℝ), 4 / 3]) = !![(2 / 9 : ℝ), -(4 / 9)] := by
    ext i j
    fin_cases i <;> fin_cases j <;> norm_num [hprod, oneSub]
  have hpre : hprod !![(1 : ℝ), 1] (oneSub !![(2 / 3 : ℝ), 4 / 3]) =
      !![(1 / 3 : ℝ), -(1 / 3)] := by
    ext i j
    fin_cases i <;> fin_cases j <;> norm_num [hprod, oneSub]
  have hfpost : frob !![(2 / 9 : ℝ), -(4 / 9)] = Real.sqrt (20 / 81) := by
    unfold frob frobSq
    norm_num [Fin.sum_univ_one, Fin.sum_univ_two]
  have hfpre : frob !![(1 / 3 : ℝ), -(1 / 3)] = Real.sqrt (2 / 9) := by
    unfold frob frobSq
    norm_num [Fin.sum_univ_one, Fin.sum_univ_two]
  constructor
  · show decide _ = false
    rw [hW2, hdHmat, heW, hpost, hfpost, decide_eq_false_iff_not]
    rintro ⟨-, h⟩
    rw [Real.sqrt_lt' (by norm_num : (0 : ℝ) < 12 / 25)] at h
    norm_num at h
  · show decide _ = true
    rw [hW2, hdHmat, heW, hpre, hfpre, decide_eq_true_eq]
    refine ⟨by norm_num, ?_⟩
    rw [Real.sqrt_lt' (by norm_num : (0 : ℝ) < 12 / 25)]
    norm_num

/-- C3: the coefficient factor `d_H` used by `mur` is computed from the
product recomputed after the basis update — the returned `H` is
`H ⊙ d_H(X, W ⊙ d_W, H, U)`, whose inner product is `(W ⊙ d_W) · H` — and
this differs from the variant that keeps the stale `W · H` inside the
powers: at `X = [[2]]`, `W = H = U = [[1]]`, `beta = 2`, the fresh factor is
`[[1]]` while the stale one is `[[2]]`. -/
theorem mur_d_H_uses_fresh_product :
    (∀ (X : Matrix (Fin m) (Fin n) ℝ) (W : Matrix (Fin m) (Fin k) ℝ)
      (H : Matrix (Fin k) (Fin n) ℝ) (U : Matrix (Fin m) (Fin n) ℝ)
      (beta : ℤ) (l1 l2 tol : ℝ),
      (mur X W H U beta l1 l2 tol).2.1 =
        hprod H (d_H X (hprod W (d_W X W H U beta l1 l2)) H U beta l1 l2)) ∧
    d_H !![(2 : ℝ)] (hprod !![(1 : ℝ)] (d_W !![(2 : ℝ)] !![(1 : ℝ)] !![(1 : ℝ)] !![(1 : ℝ)] 2 0 0))
      !![(1 : ℝ)] !![(1 : ℝ)] 2 0 0 ≠
    d_H_stale !![(2 : ℝ)] !![(1 : ℝ)]
      (hprod !![(1 : ℝ)] (d_W !![(2 : ℝ)] !![(1 : ℝ)] !![(1 : ℝ)] !![(1 : ℝ)] 2 0 0))
      !![(1 : ℝ)] !![(1 : ℝ)] 2 0 0 := by
  constructor
  · intro X W H U beta l1 l2 tol
    rfl
  · have hdW : d_W !![(2 : ℝ)] !![(1 : ℝ)] !![(1 : ℝ)] !![(1 : ℝ)] 2 0 0 = !![(2 : ℝ)] := by
      unfold d_W
      ext i a
      fin_cases i
      fin_cases a
      norm_num [hprod, epow, Matrix.mul_apply, Matrix.of_apply, Fin.sum_univ_one]
    have hW2 : hprod !![(1 : ℝ)]
        (d_W !![(2 : ℝ)] !![(1 : ℝ)] !![(1 : ℝ)] !![(1 : ℝ)] 2 0 0) = !![(2 : ℝ)] := by
      rw [hdW]
      ext i a
      fin_cases i
      fin_cases a
      norm_num [hprod]
    have hfresh : d_H !![(2 : ℝ)] !![(2 : ℝ)] !![(1 : ℝ)] !![(1 : ℝ)] 2 0 0 = !![(1 : ℝ)] := by
      unfold d_H
      ext a j
      fin_cases a
      fin_cases j
      norm_num [hprod, epow, Matrix.mul_apply, Matrix.of_apply, Matrix.transpose_apply,
        Fin.sum_univ_one]
    have hstale : d_H_stale !![(2 : ℝ)] !![(1 : ℝ)] !![(2 : ℝ)] !![(1 : ℝ)] !![(1 : ℝ)]
        2 0 0 = !![(2 : ℝ)] := by
      unfold d_H_stale
      ext a j
      fin_cases a
      fin_cases j
      norm_num [hprod, epow, Matrix.mul_apply, Matrix.of_apply, Matrix.transpose_apply,
        Fin.sum_univ_one]
    rw [hW2, hfresh, hstale]
    intro h
    have hentry := congrFun (congrFun h 0) 0
    norm_num at hentry

lemma tanh_sq_le_one (x : ℝ) : Real.tanh x ^ 2 ≤ 1 := by
  rw [Real.tanh_eq_sinh_div_cosh, div_pow,
    div_le_one (pow_pos (Real.cosh_pos x) 2), Real.cosh_sq]
  linarith

/-- C9 counterexample: the residual `[[1,0],[0,0]]` is not identically zero,
yet its second column is all zeros, so the divisor `‖E_col‖₂` of `l21_weight`
at that column is exactly `0` — `l21_weight` does divide by zero under the
claim's precondition (numpy produces an infinite weight there). -/
theorem l21_weight_zero_column_counterexample :
    err !![(1 : ℝ), 0; 0, 0] !![(0 : ℝ); 0] !![(0 : ℝ), 0] ≠ 0 ∧
    colNorm (err !![(1 : ℝ), 0; 0, 0] !![(0 : ℝ); 0] !![(0 : ℝ), 0]) 1 = 0 := by
  have he : err !![(1 : ℝ), 0; 0, 0] !![(0 : ℝ); 0] !![(0 : ℝ), 0] =
      !![(1 : ℝ), 0; 0, 0] := by
    unfold err
    ext i j
    rw [Matrix.sub_apply, Matrix.mul_apply]
    simp
  constructor
  · rw [he]
    intro h
    have hentry := congrFun (congrFun h 0) 0
    norm_num at hentry
  · rw [he]
    unfold colNorm
    norm_num [Fin.sum_univ_two, Real.sqrt_zero]

/-- C9 amended: whenever the residual is not identically zero, `tanh_weight`,
`cim_weight` and `l1_weight` are well defined — their divisors
(`sum(E**2)`, `E2.mean()`, the induced 1-norm) are strictly positive — and
return entrywise nonnegative values; `l21_weight` needs the strictly stronger
precondition that *every column* of the residual is nonzero, and then each of
its per-column divisors is positive and each per-column weight positive. -/
theorem weight_functions_welldefined (X : Matrix (Fin (m + 1)) (Fin (n + 1)) ℝ)
    (W : Matrix (Fin (m + 1)) (Fin k) ℝ) (H : Matrix (Fin k) (Fin (n + 1)) ℝ)
    (hE : err X W H ≠ 0) :
    (0 < ∑ i, ∑ j, err X W H i j ^ 2) ∧
    (∀ i j, 0 ≤ tanh_weight X W H 1 i j) ∧
    (0 < cim_E2mean X W H) ∧
    (∀ i j, 0 ≤ cim_weight X W H i j) ∧
    (0 < npNorm1 (err X W H)) ∧
    (0 < l1_weight X W H) ∧
    ((∀ j, ∃ i, err X W H i j ≠ 0) →
      ∀ j, 0 < colNorm (err X W H) j ∧ 0 < l21_weight X W H j) := by
  obtain ⟨i0, j0, h0⟩ : ∃ i j, err X W H i j ≠ 0 := by
    by_contra hc
    push_neg at hc
    exact hE (by ext i j; simpa using hc i j)
  have hS : 0 < ∑ i, ∑ j, err X W H i j ^ 2 := by
    refine Finset.sum_pos' (fun i _ => Finset.sum_nonneg fun j _ => sq_nonneg _)
      ⟨i0, Finset.mem_univ i0, ?_⟩
    exact Finset.sum_pos' (fun j _ => sq_nonneg _)
      ⟨j0, Finset.mem_univ j0, sq_pos_of_ne_zero h0⟩
  have ha : 0 < tanh_a X W H 1 := by
    unfold tanh_a
    refine div_pos ?_ hS
    have : (0 : ℝ) < ((m + 1) * (n + 1) : ℕ) := by positivity
    linarith
  refine ⟨hS, ?_, ?_, ?_, ?_, ?_, ?_⟩
  · intro i j
    show 0 ≤ tanh_a X W H 1 * (1 - Real.tanh (tanh_a X W H 1 * |err X W H i j|) ^ 2)
    have := tanh_sq_le_one (tanh_a X W H 1 * |err X W H i j|)
    exact mul_nonneg ha.le (by linarith)
  · unfold cim_E2mean
    refine div_pos hS ?_
    positivity
  · intro i j
    exact (Real.exp_pos _).le
  · have hcol : 0 < colAbsSum (err X W H) j0 := by
      unfold colAbsSum
      exact Finset.sum_pos' (fun i _ => abs_nonneg _)
        ⟨i0, Finset.mem_univ i0, abs_pos.mpr h0⟩
    exact lt_of_lt_of_le hcol
      (le_foldr_max _ _ (List.mem_map_of_mem _ (List.mem_finRange j0)))
  · have hcol : 0 < colAbsSum (err X W H) j0 := by
      unfold colAbsSum
      exact Finset.sum_pos' (fun i _ => abs_nonneg _)
        ⟨i0, Finset.mem_univ i0, abs_pos.mpr h0⟩
    exact one_div_pos.mpr (lt_of_lt_of_le hcol
      (le_foldr_max _ _ (List.mem_map_of_mem _ (List.mem_finRange j0))))
  · intro hcols j
    obtain ⟨i1, h1⟩ := hcols j
    have hs : 0 < ∑ i, err X W H i j ^ 2 :=
      Finset.sum_pos' (fun i _ => sq_nonneg _)
        ⟨i1, Finset.mem_univ i1, sq_pos_of_ne_zero h1⟩
    have hc : 0 < colNorm (err X W H) j := Real.sqrt_pos.mpr hs
    exact ⟨hc, one_div_pos.mpr hc⟩

/-- C9 witness: at `X = [[1]]`, `W = H = [[0]]` the residual is the nonzero
matrix `[[1]]`, and all the well-definedness and nonnegativity conclusions
hold there. -/
theorem weight_functions_welldefined_witness :
    err !![(1 : ℝ)] !![(0 : ℝ)] !![(0 : ℝ)] ≠ 0 ∧
    ((0 < ∑ i, ∑ j, err !![(1 : ℝ)] !![(0 : ℝ)] !![(0 : ℝ)] i j ^ 2) ∧
    (∀ i j, 0 ≤ tanh_weight !![(1 : ℝ)] !![(0 : ℝ)] !![(0 : ℝ)] 1 i j) ∧
    (0 < cim_E2mean !![(1 : ℝ)] !![(0 : ℝ)] !![(0 : ℝ)]) ∧
    (∀ i j, 0 ≤ cim_weight !![(1 : ℝ)] !![(0 : ℝ)] !![(0 : ℝ)] i j) ∧
    (0 < npNorm1 (err !![(1 : ℝ)] !![(0 : ℝ)] !![(0 : ℝ)])) ∧
    (0 < l1_weight !![(1 : ℝ)] !![(0 : ℝ)] !![(0 : ℝ)]) ∧
    ((∀ j, ∃ i, err !![(1 : ℝ)] !![(0 : ℝ)] !![(0 : ℝ)] i j ≠ 0) →
      ∀ j, 0 < colNorm (err !![(1 : ℝ)] !![(0 : ℝ)] !![(0 : ℝ)]) j ∧
        0 < l21_weight !![(1 : ℝ)] !![(0 : ℝ)] !![(0 : ℝ)] j)) := by
  have hne : err !![(1 : ℝ)] !![(0 : ℝ)] !![(0 : ℝ)] ≠ 0 := by
    have he : err !![(1 : ℝ)] !![(0 : ℝ)] !![(0 : ℝ)] = !![(1 : ℝ)] := by
      unfold err
      ext i j
      rw [Matrix.sub_apply, Matrix.mul_apply]
      simp
    rw [he]
    intro h
    have hentry := congrFun (congrFun h 0) 0
    norm_num at hentry
  exact ⟨hne, weight_functions_welldefined !![(1 : ℝ)] !![(0 : ℝ)] !![(0 : ℝ)] hne⟩

lemma gram_symm_entry {k p : ℕ} (M : Matrix (Fin k) (Fin p) ℝ) (a b : Fin k) :
    (M * Mᵀ) a b = (M * Mᵀ) b a := by
  rw [Matrix.mul_apply, Matrix.mul_apply]
  refine Finset.sum_congr rfl fun j _ => ?_
  rw [Matrix.transpose_apply, Matrix.transpose_apply]
  ring

lemma sum_sq_sum {k p : ℕ} (M : Matrix (Fin k) (Fin p) ℝ) (u : Fin k → ℝ) :
    ∑ j, (∑ a, u a * M a j) ^ 2 = ∑ a, ∑ b, (M * Mᵀ) a b * (u a * u b) := by
  have h1 : ∀ j : Fin p, (∑ a, u a * M a j) ^ 2 =
      ∑ a, ∑ b, (u a * M a j) * (u b * M b j) := by
    intro j
    rw [sq, Finset.sum_mul_sum]
  rw [Finset.sum_congr rfl fun j _ => h1 j, Finset.sum_comm]
  refine Finset.sum_congr rfl fun a _ => ?_
  rw [Finset.sum_comm]
  refine Finset.sum_congr rfl fun b _ => ?_
  rw [Matrix.mul_apply, Finset.sum_mul]
  refine Finset.sum_congr rfl fun j _ => ?_
  rw [Matrix.transpose_apply]
  ring

lemma cross_sum {k p : ℕ} (M : Matrix (Fin k) (Fin p) ℝ) (x : Fin p → ℝ) (w u : Fin k → ℝ) :
    ∑ j, (∑ a, u a * M a j) * (x j - ∑ a, w a * M a j) =
      ∑ a, u a * (colDot M x a - gram M w a) := by
  have h1 : ∀ j, (∑ a, u a * M a j) * (x j - ∑ a, w a * M a j) =
      ∑ a, u a * (M a j * (x j - ∑ b, w b * M b j)) := by
    intro j
    rw [Finset.sum_mul]
    exact Finset.sum_congr rfl fun a _ => by ring
  rw [Finset.sum_congr rfl fun j _ => h1 j, Finset.sum_comm]
  refine Finset.sum_congr rfl fun a _ => ?_
  rw [← Finset.mul_sum]
  congr 1
  have h2 : ∀ j, M a j * (x j - ∑ b, w b * M b j) =
      M a j * x j - ∑ b, w b * (M a j * M b j) := by
    intro j
    rw [mul_sub]
    congr 1
    rw [Finset.mul_sum]
    exact Finset.sum_congr rfl fun b _ => by ring
  rw [Finset.sum_congr rfl fun j _ => h2 j, Finset.sum_sub_distrib]
  unfold colDot gram
  congr 1
  rw [Finset.sum_comm]
  refine Finset.sum_congr rfl fun b _ => ?_
  rw [Matrix.mul_apply, Finset.sum_mul, ← Finset.mul_sum]
  rw [Finset.mul_sum]
  refine Finset.sum_congr rfl fun j _ => ?_
  rw [Matrix.transpose_apply]
  ring

lemma quad_bound {k p : ℕ} (M : Matrix (Fin k) (Fin p) ℝ) (w t : Fin k → ℝ)
    (hM : ∀ a j, 0 ≤ M a j) (hw : ∀ a, 0 ≤ w a) :
    ∑ a, ∑ b, (M * Mᵀ) a b * ((w a * t a) * (w b * t b)) ≤
      ∑ a, gram M w a * (w a * t a ^ 2) := by
  have hA : ∀ a b, 0 ≤ (M * Mᵀ) a b := by
    intro a b
    rw [Matrix.mul_apply]
    refine Finset.sum_nonneg fun j _ => ?_
    rw [Matrix.transpose_apply]
    exact mul_nonneg (hM a j) (hM b j)
  have step1 : ∑ a, ∑ b, (M * Mᵀ) a b * ((w a * t a) * (w b * t b)) ≤
      ∑ a, ∑ b, (M * Mᵀ) a b * ((w a * w b) * ((t a ^ 2 + t b ^ 2) / 2)) := by
    refine Finset.sum_le_sum fun a _ => Finset.sum_le_sum fun b _ => ?_
    refine mul_le_mul_of_nonneg_left ?_ (hA a b)
    have h2 : t a * t b ≤ (t a ^ 2 + t b ^ 2) / 2 := by nlinarith [sq_nonneg (t a - t b)]
    have hww : 0 ≤ w a * w b := mul_nonneg (hw a) (hw b)
    calc (w a * t a) * (w b * t b) = (w a * w b) * (t a * t b) := by ring
      _ ≤ (w a * w b) * ((t a ^ 2 + t b ^ 2) / 2) := mul_le_mul_of_nonneg_left h2 hww
  refine step1.trans (le_of_eq ?_)
  have hsplit : ∀ a b : Fin k, (M * Mᵀ) a b * ((w a * w b) * ((t a ^ 2 + t b ^ 2) / 2)) =
      (M * Mᵀ) a b * (w a * w b * t a ^ 2) / 2 + (M * Mᵀ) a b * (w a * w b * t b ^ 2) / 2 := by
    intro a b
    ring
  rw [Finset.sum_congr rfl fun a _ => Finset.sum_congr rfl fun b _ => hsplit a b]
  rw [Finset.sum_congr rfl fun a _ => Finset.sum_add_distrib, Finset.sum_add_distrib]
  have hfirst : ∑ a, ∑ b, (M * Mᵀ) a b * (w a * w b * t a ^ 2) / 2 =
      ∑ a, gram M w a * (w a * t a ^ 2) / 2 := by
    refine Finset.sum_congr rfl fun a _ => ?_
    unfold gram
    calc ∑ b, (M * Mᵀ) a b * (w a * w b * t a ^ 2) / 2 =
        ∑ b, ((M * Mᵀ) a b * w b) * (w a * t a ^ 2) / 2 :=
          Finset.sum_congr rfl fun b _ => by ring
      _ = (∑ b, (M * Mᵀ) a b * w b) * (w a * t a ^ 2) / 2 := by
          rw [← Finset.sum_div, ← Finset.sum_mul]
  have hsecond : ∑ a, ∑ b, (M * Mᵀ) a b * (w a * w b * t b ^ 2) / 2 =
      ∑ a, gram M w a * (w a * t a ^ 2) / 2 := by
    rw [Finset.sum_comm]
    refine Finset.sum_congr rfl fun c _ => ?_
    unfold gram
    calc ∑ a, (M * Mᵀ) a c * (w a * w c * t c ^ 2) / 2 =
        ∑ a, ((M * Mᵀ) c a * w a) * (w c * t c ^ 2) / 2 := by
          refine Finset.sum_congr rfl fun a _ => ?_
          rw [gram_symm_entry M a c]
          ring
      _ = (∑ a, (M * Mᵀ) c a * w a) * (w c * t c ^ 2) / 2 := by
          rw [← Finset.sum_div, ← Finset.sum_mul]
  rw [hfirst, hsecond, ← Finset.sum_add_distrib]
  exact Finset.sum_congr rfl fun a _ => by ring

lemma mur_vector_descent {k p : ℕ} (M : Matrix (Fin k) (Fin p) ℝ) (x : Fin p → ℝ)
    (w : Fin k → ℝ) (hM : ∀ a j, 0 ≤ M a j) (hw : ∀ a, 0 ≤ w a)
    (hc : ∀ a, 0 < gram M w a) :
    ∑ j, (x j - ∑ a, (w a * (colDot M x a / gram M w a)) * M a j) ^ 2 ≤
      ∑ j, (x j - ∑ a, w a * M a j) ^ 2 := by
  have hca : ∀ a, gram M w a ≠ 0 := fun a => (hc a).ne'
  have key : ∀ j, (x j - ∑ a, (w a * (colDot M x a / gram M w a)) * M a j) ^ 2 =
      (x j - ∑ a, w a * M a j) ^ 2
        - 2 * ((∑ a, (w a * ((colDot M x a - gram M w a) / gram M w a)) * M a j) *
          (x j - ∑ a, w a * M a j))
        + (∑ a, (w a * ((colDot M x a - gram M w a) / gram M w a)) * M a j) ^ 2 := by
    intro j
    have hsum : ∑ a, (w a * (colDot M x a / gram M w a)) * M a j =
        (∑ a, w a * M a j) +
          ∑ a, (w a * ((colDot M x a - gram M w a) / gram M w a)) * M a j := by
      rw [← Finset.sum_add_distrib]
      refine Finset.sum_congr rfl fun a _ => ?_
      have h := hca a
      field_simp
      ring
    rw [hsum]
    ring
  rw [Finset.sum_congr rfl fun j _ => key j, Finset.sum_add_distrib,
    Finset.sum_sub_distrib, ← Finset.mul_sum]
  have hcross := cross_sum M x w
    (fun a => w a * ((colDot M x a - gram M w a) / gram M w a))
  have hquad := sum_sq_sum M
    (fun a => w a * ((colDot M x a - gram M w a) / gram M w a))
  have hqb := quad_bound M w
    (fun a => (colDot M x a - gram M w a) / gram M w a) hM hw
  simp only [] at hcross hquad hqb
  have hT : ∑ a, (w a * ((colDot M x a - gram M w a) / gram M w a)) *
      (colDot M x a - gram M w a) =
      ∑ a, gram M w a * (w a * ((colDot M x a - gram M w a) / gram M w a) ^ 2) := by
    refine Finset.sum_congr rfl fun a _ => ?_
    have h := hca a
    field_simp
    ring
  have hQ : (∑ j, (∑ a, (w a * ((colDot M x a - gram M w a) / gram M w a)) * M a j) ^ 2) ≤
      ∑ a, gram M w a * (w a * ((colDot M x a - gram M w a) / gram M w a) ^ 2) := by
    rw [hquad]
    exact hqb
  have hTnn : 0 ≤ ∑ a, gram M w a *
      (w a * ((colDot M x a - gram M w a) / gram M w a) ^ 2) :=
    Finset.sum_nonneg fun a _ =>
      mul_nonneg (hc a).le (mul_nonneg (hw a) (sq_nonneg _))
  rw [hcross, hT]
  linarith [hQ, hTnn]

lemma gram_row_eq (W : Matrix (Fin m) (Fin k) ℝ) (H : Matrix (Fin k) (Fin n) ℝ)
    (i : Fin m) (a : Fin k) :
    (W * (H * Hᵀ)) i a = gram H (fun a' => W i a') a := by
  rw [Matrix.mul_apply]
  unfold gram
  refine Finset.sum_congr rfl fun b _ => ?_
  rw [gram_symm_entry H b a]
  ring

lemma d_W_uniform (X : Matrix (Fin m) (Fin n) ℝ) (W : Matrix (Fin m) (Fin k) ℝ)
    (H : Matrix (Fin k) (Fin n) ℝ) :
    d_W X W H (onesMat m n) 2 0 0 =
      Matrix.of fun i a => colDot H (fun j => X i j) a / gram H (fun a' => W i a') a := by
  unfold d_W
  ext i a
  rw [Matrix.of_apply, Matrix.of_apply]
  have hnum : (hprod (hprod (onesMat m n) X) (epow (W * H) (2 - 2)) * Hᵀ) i a =
      colDot H (fun j => X i j) a := by
    rw [Matrix.mul_apply]
    unfold colDot
    refine Finset.sum_congr rfl fun j _ => ?_
    simp only [hprod, epow, onesMat, Matrix.of_apply, Matrix.transpose_apply]
    rw [show (2 - 2 : ℤ) = 0 from rfl, zpow_zero]
    ring
  have hden : (hprod (onesMat m n) (epow (W * H) (2 - 1)) * Hᵀ) i a + 0 + 0 * W i a =
      gram H (fun a' => W i a') a := by
    rw [Matrix.mul_apply]
    have h1 : ∀ j, hprod (onesMat m n) (epow (W * H) (2 - 1)) i j * Hᵀ j a =
        (W * H) i j * H a j := by
      intro j
      simp only [hprod, epow, onesMat, Matrix.of_apply, Matrix.transpose_apply]
      rw [show (2 - 1 : ℤ) = 1 from rfl, zpow_one]
      ring
    rw [Finset.sum_congr rfl fun j _ => h1 j]
    have h2 : ∑ j, (W * H) i j * H a j = gram H (fun a' => W i a') a := by
      rw [← gram_row_eq W H i a, ← Matrix.mul_assoc, Matrix.mul_apply]
      refine Finset.sum_congr rfl fun j _ => ?_
      rw [Matrix.transpose_apply]
    rw [h2]
    ring
  rw [hnum, hden]

lemma W_update_frobSq_le (X : Matrix (Fin m) (Fin n) ℝ) (W : Matrix (Fin m) (Fin k) ℝ)
    (H : Matrix (Fin k) (Fin n) ℝ)
    (hW : ∀ i a, 0 ≤ W i a) (hH : ∀ a j, 0 ≤ H a j)
    (hden : ∀ i a, 0 < (W * (H * Hᵀ)) i a) :
    frobSq (X - hprod W (d_W X W H (onesMat m n) 2 0 0) * H) ≤ frobSq (X - W * H) := by
  rw [d_W_uniform]
  unfold frobSq
  refine Finset.sum_le_sum fun i _ => ?_
  have hdesc := mur_vector_descent H (fun j => X i j) (fun a => W i a)
    (fun a j => hH a j) (fun a => hW i a)
    (fun a => by rw [← gram_row_eq W H i a]; exact hden i a)
  simp only [] at hdesc
  have hlhs : ∀ j, (hprod W (Matrix.of fun i' a =>
      colDot H (fun j' => X i' j') a / gram H (fun a' => W i' a') a) * H) i j =
      ∑ a, (W i a * (colDot H (fun j' => X i j') a / gram H (fun a' => W i a') a)) * H a j := by
    intro j
    rw [Matrix.mul_apply]
    refine Finset.sum_congr rfl fun a _ => ?_
    simp only [hprod, Matrix.of_apply]
  have hrhs : ∀ j, (W * H) i j = ∑ a, W i a * H a j := fun j => Matrix.mul_apply
  calc ∑ j, (X i j - (hprod W (Matrix.of fun i' a =>
        colDot H (fun j' => X i' j') a / gram H (fun a' => W i' a') a) * H) i j) ^ 2 =
      ∑ j, (X i j - ∑ a, (W i a *
        (colDot H (fun j' => X i j') a / gram H (fun a' => W i a') a)) * H a j) ^ 2 := by
        refine Finset.sum_congr rfl fun j _ => ?_
        rw [hlhs j]
    _ ≤ ∑ j, (X i j - ∑ a, W i a * H a j) ^ 2 := hdesc
    _ = ∑ j, (X i j - (W * H) i j) ^ 2 := by
        refine Finset.sum_congr rfl fun j _ => ?_
        rw [hrhs j]

lemma frobSq_eq_sum_cols (A : Matrix (Fin m) (Fin n) ℝ) :
    frobSq A = ∑ j, ∑ i, A i j ^ 2 := by
  unfold frobSq
  exact Finset.sum_comm

lemma gram_col_eq (W2 : Matrix (Fin m) (Fin k) ℝ) (H : Matrix (Fin k) (Fin n) ℝ)
    (a : Fin k) (j : Fin n) :
    (W2ᵀ * (W2 * H)) a j = gram W2ᵀ (fun b => H b j) a := by
  rw [← Matrix.mul_assoc, Matrix.mul_apply]
  unfold gram
  refine Finset.sum_congr rfl fun b _ => ?_
  rw [Matrix.transpose_transpose]

lemma d_H_uniform (X : Matrix (Fin m) (Fin n) ℝ) (W2 : Matrix (Fin m) (Fin k) ℝ)
    (H : Matrix (Fin k) (Fin n) ℝ) :
    d_H X W2 H (onesMat m n) 2 0 0 =
      Matrix.of fun a j => colDot W2ᵀ (fun i => X i j) a / gram W2ᵀ (fun b => H b j) a := by
  unfold d_H
  ext a j
  rw [Matrix.of_apply, Matrix.of_apply]
  have hnum : (W2ᵀ * hprod (hprod (onesMat m n) X) (epow (W2 * H) (2 - 2))) a j =
      colDot W2ᵀ (fun i => X i j) a := by
    rw [Matrix.mul_apply]
    unfold colDot
    refine Finset.sum_congr rfl fun i _ => ?_
    simp only [hprod, epow, onesMat, Matrix.of_apply]
    rw [show (2 - 2 : ℤ) = 0 from rfl, zpow_zero]
    ring
  have hden : (W2ᵀ * hprod (onesMat m n) (epow (W2 * H) (2 - 1))) a j + 0 + 0 * H a j =
      gram W2ᵀ (fun b => H b j) a := by
    have h1 : (W2ᵀ * hprod (onesMat m n) (epow (W2 * H) (2 - 1))) a j =
        (W2ᵀ * (W2 * H)) a j := by
      rw [Matrix.mul_apply, Matrix.mul_apply]
      refine Finset.sum_congr rfl fun i _ => ?_
      simp only [hprod, epow, onesMat, Matrix.of_apply]
      rw [show (2 - 1 : ℤ) = 1 from rfl, zpow_one]
      ring
    rw [h1, gram_col_eq]
    ring
  rw [hnum, hden]

lemma H_update_frobSq_le (X : Matrix (Fin m) (Fin n) ℝ) (W2 : Matrix (Fin m) (Fin k) ℝ)
    (H : Matrix (Fin k) (Fin n) ℝ)
    (hW2 : ∀ i a, 0 ≤ W2 i a) (hH : ∀ a j, 0 ≤ H a j)
    (hden : ∀ a j, 0 < (W2ᵀ * (W2 * H)) a j) :
    frobSq (X - W2 * hprod H (d_H X W2 H (onesMat m n) 2 0 0)) ≤ frobSq (X - W2 * H) := by
  rw [d_H_uniform, frobSq_eq_sum_cols, frobSq_eq_sum_cols]
  refine Finset.sum_le_sum fun j _ => ?_
  have hdesc := mur_vector_descent W2ᵀ (fun i => X i j) (fun a => H a j)
    (fun a i => hW2 i a) (fun a => hH a j)
    (fun a => by rw [← gram_col_eq W2 H a j]; exact hden a j)
  simp only [Matrix.transpose_apply] at hdesc
  have hlhs : ∀ i, (W2 * hprod H (Matrix.of fun a j' =>
      colDot W2ᵀ (fun i' => X i' j') a / gram W2ᵀ (fun b => H b j') a)) i j =
      ∑ a, (H a j * (colDot W2ᵀ (fun i' => X i' j) a / gram W2ᵀ (fun b => H b j) a)) *
        W2 i a := by
    intro i
    rw [Matrix.mul_apply]
    refine Finset.sum_congr rfl fun a _ => ?_
    simp only [hprod, Matrix.of_apply]
    ring
  have hrhs : ∀ i, (W2 * H) i j = ∑ a, H a j * W2 i a := by
    intro i
    rw [Matrix.mul_apply]
    exact Finset.sum_congr rfl fun a _ => by ring
  calc ∑ i, (X i j - (W2 * hprod H (Matrix.of fun a j' =>
        colDot W2ᵀ (fun i' => X i' j') a / gram W2ᵀ (fun b => H b j') a)) i j) ^ 2 =
      ∑ i, (X i j - ∑ a, (H a j *
        (colDot W2ᵀ (fun i' => X i' j) a / gram W2ᵀ (fun b => H b j) a)) * W2 i a) ^ 2 := by
        refine Finset.sum_congr rfl fun i _ => ?_
        rw [hlhs i]
    _ ≤ ∑ i, (X i j - ∑ a, H a j * W2 i a) ^ 2 := hdesc
    _ = ∑ i, (X i j - (W2 * H) i j) ^ 2 := by
        refine Finset.sum_congr rfl fun i _ => ?_
        rw [hrhs i]

/-- C6: one application of `mur` with the all-ones weight, `beta = 2` and
`l1 = l2 = 0` does not increase the Frobenius reconstruction error
`‖X − W·H‖`, for entrywise nonnegative `X`, `W`, `H` whose update
denominators are strictly positive: the basis half-step is a majorize-minimize
descent step row by row, and the coefficient half-step (taken against the
recomputed product) is one column by column. -/
theorem mur_frobenius_error_nonincreasing (X : Matrix (Fin m) (Fin n) ℝ)
    (W : Matrix (Fin m) (Fin k) ℝ) (H : Matrix (Fin k) (Fin n) ℝ) (tol : ℝ)
    (hX : ∀ i j, 0 ≤ X i j) (hW : ∀ i a, 0 ≤ W i a) (hH : ∀ a j, 0 ≤ H a j)
    (hdW : ∀ i a, 0 < (W * (H * Hᵀ)) i a)
    (hdH : ∀ a j, 0 < ((hprod W (d_W X W H (onesMat m n) 2 0 0))ᵀ *
      (hprod W (d_W X W H (onesMat m n) 2 0 0) * H)) a j) :
    frob (X - (mur X W H (onesMat m n) 2 0 0 tol).1 *
        (mur X W H (onesMat m n) 2 0 0 tol).2.1) ≤
      frob (X - W * H) := by
  have h1 : (mur X W H (onesMat m n) 2 0 0 tol).1 =
      hprod W (d_W X W H (onesMat m n) 2 0 0) := rfl
  have h2 : (mur X W H (onesMat m n) 2 0 0 tol).2.1 =
      hprod H (d_H X (hprod W (d_W X W H (onesMat m n) 2 0 0)) H (onesMat m n) 2 0 0) := rfl
  rw [h1, h2]
  have hW2 : ∀ i a, 0 ≤ hprod W (d_W X W H (onesMat m n) 2 0 0) i a := by
    intro i a
    rw [d_W_uniform]
    simp only [hprod, Matrix.of_apply]
    refine mul_nonneg (hW i a) (div_nonneg ?_ ?_)
    · exact Finset.sum_nonneg fun j _ => mul_nonneg (hH a j) (hX i j)
    · rw [← gram_row_eq W H i a]
      exact (hdW i a).le
  unfold frob
  refine Real.sqrt_le_sqrt ?_
  calc frobSq (X - hprod W (d_W X W H (onesMat m n) 2 0 0) *
      hprod H (d_H X (hprod W (d_W X W H (onesMat m n) 2 0 0)) H (onesMat m n) 2 0 0)) ≤
      frobSq (X - hprod W (d_W X W H (onesMat m n) 2 0 0) * H) :=
        H_update_frobSq_le X _ H hW2 hH hdH
    _ ≤ frobSq (X - W * H) := W_update_frobSq_le X W H hW hH hdW

/-- C6 witness: at the all-ones `1 × 1` instance both update denominators are
positive, and the reconstruction error after one `mur` step is no larger than
before. -/
theorem mur_frobenius_error_nonincreasing_witness :
    (∀ i a : Fin 1, 0 < (!![(1 : ℝ)] * (!![(1 : ℝ)] * !![(1 : ℝ)]ᵀ)) i a) ∧
    frob (!![(1 : ℝ)] - (mur !![(1 : ℝ)] !![(1 : ℝ)] !![(1 : ℝ)] (onesMat 1 1)
        2 0 0 (1 / 1000)).1 *
      (mur !![(1 : ℝ)] !![(1 : ℝ)] !![(1 : ℝ)] (onesMat 1 1) 2 0 0 (1 / 1000)).2.1) ≤
      frob (!![(1 : ℝ)] - !![(1 : ℝ)] * !![(1 : ℝ)]) := by
  have hone : ∀ i j : Fin 1, (0 : ℝ) ≤ !![(1 : ℝ)] i j := by
    intro i j
    fin_cases i
    fin_cases j
    norm_num
  have hdW : ∀ i a : Fin 1, 0 < (!![(1 : ℝ)] * (!![(1 : ℝ)] * !![(1 : ℝ)]ᵀ)) i a := by
    intro i a
    fin_cases i
    fin_cases a
    norm_num [Matrix.mul_apply, Matrix.transpose_apply, Fin.sum_univ_one,
      Matrix.vecHead, Matrix.vecTail]
  have hdWmat : d_W !![(1 : ℝ)] !![(1 : ℝ)] !![(1 : ℝ)] (onesMat 1 1) 2 0 0 =
      !![(1 : ℝ)] := by
    unfold d_W
    ext i a
    fin_cases i
    fin_cases a
    norm_num [hprod, epow, onesMat, Matrix.mul_apply, Matrix.of_apply,
      Matrix.transpose_apply]
  have hW2 : hprod !![(1 : ℝ)]
      (d_W !![(1 : ℝ)] !![(1 : ℝ)] !![(1 : ℝ)] (onesMat 1 1) 2 0 0) = !![(1 : ℝ)] := by
    rw [hdWmat]
    ext i a
    fin_cases i
    fin_cases a
    norm_num [hprod, Matrix.of_apply]
  have hdH : ∀ a j : Fin 1,
      0 < ((hprod !![(1 : ℝ)] (d_W !![(1 : ℝ)] !![(1 : ℝ)] !![(1 : ℝ)]
          (onesMat 1 1) 2 0 0))ᵀ *
        (hprod !![(1 : ℝ)] (d_W !![(1 : ℝ)] !![(1 : ℝ)] !![(1 : ℝ)]
          (onesMat 1 1) 2 0 0) * !![(1 : ℝ)])) a j := by
    intro a j
    rw [hW2]
    fin_cases a
    fin_cases j
    norm_num [Matrix.mul_apply, Matrix.transpose_apply, Fin.sum_univ_one,
      Matrix.vecHead, Matrix.vecTail]
  exact ⟨hdW, mur_frobenius_error_nonincreasing !![(1 : ℝ)] !![(1 : ℝ)] !![(1 : ℝ)]
    (1 / 1000) hone hone hone hdW hdH⟩

end NMFModel
